import Mathlib

/-!
Verification of the SecureVault core against its specification.

The development shallowly embeds the Rust sources:
  * `crates/core-crypto/src/lib.rs` — key wrapping, AEAD helpers, item-key
    derivation and the password generator;
  * `crates/vault-store/src/lib.rs` — the append-only encrypted log engine;
  * `apps/desktop/src-tauri/src/main.rs` — the command layer
    (`create_vault`, `unlock_vault`, `read_entry`, ...).

Machine integers and byte buffers are modelled as `Nat` / `List Nat`.
The external cryptographic crates (`aes_gcm`, `argon2`, `hkdf`) are not part
of the repository; they are modelled as deterministic symbolic primitives,
as documented on each definition.  Rust strings are modelled as their UTF-8
byte sequences.  Panics (`expect`, out-of-range slicing) are modelled by an
explicit outcome constructor.
-/

set_option maxRecDepth 100000

namespace SecureVault

/-- Byte buffers are lists of naturals; a well-formed byte is `< 256`. -/
abbrev Bytes := List Nat

/-! ## Little-endian u32 framing (`u32::to_le_bytes` / `u32::from_le_bytes`) -/

/-- `u32::to_le_bytes` on a value `n < 2^32`. -/
def u32le (n : Nat) : Bytes :=
  [n % 256, n / 256 % 256, n / 65536 % 256, n / 16777216 % 256]

/-- `u32::from_le_bytes` on four bytes. -/
def leU32 (b0 b1 b2 b3 : Nat) : Nat :=
  b0 + 256 * b1 + 65536 * b2 + 16777216 * b3

/-! ## Postcard varint (LEB128) length framing

`postcard` serializes `usize` lengths as LEB128 varints: seven value bits per
byte, high bit set on every byte except the last.  The encoder is given
structural fuel (`n + 1` always suffices since the argument shrinks by a
factor of 128 each step). -/

def varintAux : Nat → Nat → Bytes
  | 0, _ => []
  | fuel + 1, n => if n < 128 then [n] else (n % 128 + 128) :: varintAux fuel (n / 128)

/-- LEB128 encoding of a natural number (postcard's `usize` encoding). -/
def varint (n : Nat) : Bytes := varintAux (n + 1) n

/-- LEB128 decoding: returns the value and the remaining bytes. -/
def readVarint : Bytes → Option (Nat × Bytes)
  | [] => none
  | b :: rest =>
      if b < 128 then some (b, rest)
      else
        match readVarint rest with
        | none => none
        | some (n, r) => some (b % 128 + 128 * n, r)

/-! ## VaultEntry and its postcard codec

`VaultEntry { id: Uuid, title: String, username: String, password: String }`
from `crates/vault-store/src/lib.rs`.  The `uuid` crate serializes a `Uuid`
into postcard as a byte slice (varint length, then the 16 raw bytes), and
a `String` as a varint length followed by its UTF-8 bytes.  Strings are
modelled as byte lists (UTF-8 validity is not re-checked on decode). -/

structure VaultEntry where
  id : Bytes
  title : Bytes
  username : Bytes
  password : Bytes
deriving Repr, DecidableEq

/-- Postcard serialization of a `VaultEntry` (`postcard::to_stdvec`). -/
def encodeEntry (e : VaultEntry) : Bytes :=
  varint e.id.length ++ e.id ++
  varint e.title.length ++ e.title ++
  varint e.username.length ++ e.username ++
  varint e.password.length ++ e.password

/-- Read one length-prefixed field: varint length, then that many bytes. -/
def readField (b : Bytes) : Option (Bytes × Bytes) :=
  match readVarint b with
  | none => none
  | some (n, r) => if n ≤ r.length then some (r.take n, r.drop n) else none

/-- Postcard deserialization of a `VaultEntry` (`postcard::from_bytes`).
The `uuid` deserializer rejects an id field whose length is not 16.
Trailing bytes after the last field are ignored, as `postcard::from_bytes`
does. -/
def decodeEntry (b : Bytes) : Option VaultEntry :=
  match readField b with
  | none => none
  | some (i, r1) =>
      if i.length = 16 then
        match readField r1 with
        | none => none
        | some (t, r2) =>
            match readField r2 with
            | none => none
            | some (u, r3) =>
                match readField r3 with
                | none => none
                | some (p, _) => some ⟨i, t, u, p⟩
      else none

/-! ## Byte-level model of AES-256-GCM (external `aes_gcm` crate)

AES-256-GCM is not code of this repository; it is modelled as a
deterministic AEAD whose ciphertext is the plaintext followed by a 16-byte
authentication tag computed from the key, nonce, AAD and plaintext.
Decryption re-computes the tag and fails on mismatch.  This preserves the
two facts the log engine relies on: ciphertext length = plaintext length
+ 16, and decryption inverts encryption for matching key/nonce/AAD. -/

def mixBytes (h : Nat) (l : Bytes) : Nat :=
  l.foldl (fun a b => (a * 31 + b + 1) % 65521) h

/-- One byte of the modelled GCM tag. -/
def tagByte (key nonce aad pt : Bytes) : Nat :=
  mixBytes (mixBytes (mixBytes (mixBytes 7 key) nonce) aad) pt % 256

/-- The modelled 16-byte GCM authentication tag. -/
def tag16 (key nonce aad pt : Bytes) : Bytes :=
  List.replicate 16 (tagByte key nonce aad pt)

/-- `core_crypto::aead_encrypt_aes_gcm`: seal `plaintext` under `key`,
`nonce12` and `aad`, returning ciphertext-plus-tag. -/
def aead_encrypt_aes_gcm (key nonce pt aad : Bytes) : Bytes :=
  pt ++ tag16 key nonce aad pt

/-- `core_crypto::aead_decrypt_aes_gcm`, as the underlying AEAD open.
The source calls `.expect("decryption failure")`, i.e. it panics on
authentication failure; the panic is modelled at each call site by mapping
`none` to an explicit panic outcome. -/
def aead_decrypt_aes_gcm (key ct nonce aad : Bytes) : Option Bytes :=
  if ct.length < 16 then none
  else
    let pt := ct.take (ct.length - 16)
    if ct.drop (ct.length - 16) = tag16 key nonce aad pt then some pt else none

/-- `core_crypto::derive_item_key`: HKDF-SHA256 with empty salt, IKM = DEK,
info = `"item" || item_id`.  The external `hkdf` crate is modelled
symbolically as the tagged concatenation of its inputs. -/
def derive_item_key (dek item_id : Bytes) : Bytes :=
  [105, 116, 101, 109] ++ item_id ++ dek

/-! ## The append-only record log (`crates/vault-store/src/lib.rs`)

A record frame is `len_u32_le || id_16 || nonce_12 || ciphertext_and_tag`
with `len = 16 + 12 + ct.len`.  `write_entry` draws a fresh random nonce
from `getrandom`; the nonce is passed explicitly here. -/

/-- The bytes `VaultStore::write_entry` appends for `entry` when the random
nonce drawn is `nonce`. -/
def write_entry_frame (dek nonce : Bytes) (e : VaultEntry) : Bytes :=
  let ser := encodeEntry e
  let item_key := derive_item_key dek e.id
  let ct := aead_encrypt_aes_gcm item_key nonce ser e.id
  u32le (16 + 12 + ct.length) ++ e.id ++ nonce ++ ct

/-- The record region written by a sequence of `write_entry` calls, one
`(entry, nonce)` pair per call. -/
def log_region (dek : Bytes) : List (VaultEntry × Bytes) → Bytes
  | [] => []
  | (e, n) :: rest => write_entry_frame dek n e ++ log_region dek rest

/-- Well-formedness of one written record: the id is a 16-byte UUID, the
nonce has 12 bytes, and the framed length fits in a `u32` (the cast
`total_len as u32` in the source). -/
def WfRecord (e : VaultEntry) (nonce : Bytes) : Prop :=
  e.id.length = 16 ∧ nonce.length = 12 ∧ (encodeEntry e).length + 60 < 4294967296

instance (e : VaultEntry) (nonce : Bytes) : Decidable (WfRecord e nonce) := by
  unfold WfRecord; infer_instance

/-- `std::io` error kinds surfaced by `read_all_entries`: a short read
(`UnexpectedEof` propagated by `read_exact`) or a decode failure
(`InvalidData` from `to_io_err`). -/
inductive IoErr where
  | unexpectedEof
  | invalidData
deriving Repr, DecidableEq

/-- Outcome of a store operation: a returned value, a returned `io::Error`,
or a Rust panic (reached through `.expect`). -/
inductive RRes (α : Type) where
  | ok (value : α)
  | err (e : IoErr)
  | panicked
deriving Repr, DecidableEq

/-- The replay loop of `VaultStore::read_all_entries`, on the byte region
after the header.  `fuel` is structural fuel; every iteration consumes at
least 4 bytes, so `bytes.length + 1` always suffices.  Mirrors the source:
a short read of the 4-byte length field breaks out of the loop cleanly; a
length below 16 + 12 + 16 breaks cleanly; short reads of id, nonce or
ciphertext propagate `UnexpectedEof`; an AEAD failure panics (the
`.expect` in `aead_decrypt_aes_gcm`); a postcard decode failure returns
`InvalidData`. -/
def read_records (dek : Bytes) : Nat → Bytes → List VaultEntry → RRes (List VaultEntry)
  | 0, _, acc => .ok acc
  | fuel + 1, b0 :: b1 :: b2 :: b3 :: body, acc =>
      let clen := leU32 b0 b1 b2 b3
      if clen < 16 + 12 + 16 then .ok acc
      else if body.length < 16 then .err .unexpectedEof          -- read_exact id
      else if body.length < 16 + 12 then .err .unexpectedEof     -- read_exact nonce
      else if body.length < clen then .err .unexpectedEof        -- read_exact ct
      else
        let id := body.take 16
        let n := (body.drop 16).take 12
        let ct := (body.drop 28).take (clen - 28)
        let item_key := derive_item_key dek id
        match aead_decrypt_aes_gcm item_key ct n id with
        | none => .panicked
        | some pt =>
            match decodeEntry pt with
            | none => .err .invalidData
            | some e => read_records dek fuel (body.drop clen) (acc ++ [e])
  | _ + 1, _, acc => .ok acc

/-- `VaultStore::read_all_entries`, given the record region (the file
contents after the `4 + header_len` header bytes it seeks past). -/
def read_all_entries (dek : Bytes) (records : Bytes) : RRes (List VaultEntry) :=
  read_records dek (records.length + 1) records []

/-! ## The CRUD surface over the log -/

/-- `VaultStore::list_entries`: the raw `(id, title)` projection of
`read_all_entries`, duplicates and tombstones included. -/
def list_entries (dek records : Bytes) : RRes (List (Bytes × Bytes)) :=
  match read_all_entries dek records with
  | .ok es => .ok (es.map fun e => (e.id, e.title))
  | .err e => .err e
  | .panicked => .panicked

/-- `VaultStore::get_entry`: the last record in append order whose id
matches (`entries.into_iter().rev().find(...)`). -/
def get_entry (dek records id : Bytes) : RRes (Option VaultEntry) :=
  match read_all_entries dek records with
  | .ok es => .ok (es.reverse.find? fun e => decide (e.id = id))
  | .err e => .err e
  | .panicked => .panicked

/-- The tombstone record `VaultStore::delete_entry` appends: the id with
all three strings empty. -/
def tombstone (id : Bytes) : VaultEntry := ⟨id, [], [], []⟩

/-- Outcome of the `read_entry` tauri command: a returned entry, the
`"Entry not found"` error, a propagated store error, or a panic. -/
inductive EntryResult where
  | found (e : VaultEntry)
  | notFound
  | ioError (e : IoErr)
  | panicked
deriving Repr, DecidableEq

/-- The `read_entry` command from `apps/desktop/src-tauri/src/main.rs`
after the vault has been opened and the DEK unwrapped: `get_entry`,
mapping `None` to the `"Entry not found"` error. -/
def read_entry (dek records id : Bytes) : EntryResult :=
  match get_entry dek records id with
  | .ok (some e) => .found e
  | .ok none => .notFound
  | .err e => .ioError e
  | .panicked => .panicked

/-! ### `list_active_entries` and its `HashMap`

`std::collections::HashMap` is modelled as an association list with unique
keys: `insert` overwrites in place or appends, `remove` filters the key
out.  `HashMap` iteration order is arbitrary, so the claims about the
result are stated order-independently, through lookups and key
distinctness. -/

def hm_insert (m : List (Bytes × Bytes)) (k v : Bytes) : List (Bytes × Bytes) :=
  if m.any fun p => decide (p.1 = k) then
    m.map fun p => if p.1 = k then (k, v) else p
  else m ++ [(k, v)]

def hm_remove (m : List (Bytes × Bytes)) (k : Bytes) : List (Bytes × Bytes) :=
  m.filter fun p => decide (p.1 ≠ k)

/-- The loop body of `VaultStore::list_active_entries`: a record with all
three strings empty is a deletion marker and removes its id, any other
record inserts or overwrites its id with its title. -/
def active_step (m : List (Bytes × Bytes)) (e : VaultEntry) : List (Bytes × Bytes) :=
  if e.title = [] ∧ e.username = [] ∧ e.password = [] then hm_remove m e.id
  else hm_insert m e.id e.title

/-- The reconciliation fold of `VaultStore::list_active_entries`. -/
def active_fold (es : List VaultEntry) : List (Bytes × Bytes) :=
  es.foldl active_step []

/-- `VaultStore::list_active_entries`. -/
def list_active_entries (dek records : Bytes) : RRes (List (Bytes × Bytes)) :=
  match read_all_entries dek records with
  | .ok es => .ok (active_fold es)
  | .err e => .err e
  | .panicked => .panicked

/-! ### Operation sequences (write / update / delete) -/

/-- One mutation of the public CRUD surface. -/
inductive Op where
  | write (e : VaultEntry)
  | update (e : VaultEntry)
  | delete (id : Bytes)

/-- The record each operation appends to the log: `update_entry` forwards
its entry to `write_entry` unchanged, and `delete_entry` writes the
tombstone for the id. -/
def record_of : Op → VaultEntry
  | .write e => e
  | .update e => e
  | .delete id => tombstone id

/-- The `(record, nonce)` pairs a sequence of operations appends, drawing
the i-th random nonce from the stream `nonces`. -/
def ops_records (nonces : Nat → Bytes) : List Op → Nat → List (VaultEntry × Bytes)
  | [], _ => []
  | op :: rest, i => (record_of op, nonces i) :: ops_records nonces rest (i + 1)

/-- Association-list lookup (the pairs returned by the store). -/
def assoc_lookup (m : List (Bytes × Bytes)) (k : Bytes) : Option Bytes :=
  (m.find? fun p => decide (p.1 = k)).map Prod.snd

/-- Spec-side in-memory replay map, following the claim's words: "each
non-tombstone record inserts or overwrites its id with its title, and each
tombstone record (all three strings empty) removes its id". -/
def spec_step (m : Bytes → Option Bytes) (r : VaultEntry) : Bytes → Option Bytes :=
  if r.title = [] ∧ r.username = [] ∧ r.password = [] then
    fun k => if k = r.id then none else m k
  else
    fun k => if k = r.id then some r.title else m k

/-- Spec-side replay of a record sequence against an in-memory map. -/
def spec_replay (rs : List VaultEntry) : Bytes → Option Bytes :=
  rs.foldl spec_step (fun _ => none)

/-! ## Whole-file reading -/

/-- `VaultStore::read_all_entries` on the whole file: read the 4-byte
header length, seek to `4 + header_len` (seeking past end-of-file is
permitted and leaves nothing to read), then run the replay loop.  Fewer
than 4 bytes fail the first `read_exact` with `UnexpectedEof`. -/
def read_all_entries_file (dek file : Bytes) : RRes (List VaultEntry) :=
  match file with
  | b0 :: b1 :: b2 :: b3 :: rest => read_all_entries dek (rest.drop (leU32 b0 b1 b2 b3))
  | _ => .err .unexpectedEof

/-! ## Key wrapping (`crates/core-crypto/src/lib.rs`) -/

/-- Outcome of `unwrap_key_aes_gcm`: the unwrapped key, one of the two
error strings (`MalformedCiphertext` = "ciphertext too short",
`AuthenticationFailed` = "decryption failure - wrong password or corrupted
data"), or a panic out of the `copy_from_slice` indexing. -/
inductive KeyResult where
  | ok (key : Bytes)
  | malformedCiphertext
  | authenticationFailed
  | panicked
deriving Repr, DecidableEq

/-- `core_crypto::wrap_key_aes_gcm`: `nonce || ciphertext+tag` of the DEK
under the KEK (byte-level AEAD model, empty AAD). -/
def wrap_key_aes_gcm (kek dek nonce12 : Bytes) : Bytes :=
  nonce12 ++ aead_encrypt_aes_gcm kek nonce12 dek []

/-- `core_crypto::unwrap_key_aes_gcm` (byte-level AEAD model): rejects
inputs shorter than `12 + 16`; splits the first 12 bytes as nonce; a
decryption failure is the `AuthenticationFailed` error; on success
`out.copy_from_slice(&dek[..32])` panics when the plaintext has fewer
than 32 bytes and silently keeps only the first 32 bytes otherwise. -/
def unwrap_key_aes_gcm (kek blob : Bytes) : KeyResult :=
  if blob.length < 12 + 16 then .malformedCiphertext
  else
    match aead_decrypt_aes_gcm kek (blob.drop 12) (blob.take 12) [] with
    | none => .authenticationFailed
    | some pt => if pt.length < 32 then .panicked else .ok (pt.take 32)

/-! ## Symbolic key hierarchy (claim C1)

The authentication property of C1 quantifies over *all* wrong master
passwords, which only holds in the ideal-AEAD / ideal-KDF model of the
external crates.  This layer mirrors `wrap_key_aes_gcm` /
`unwrap_key_aes_gcm` and the `create_vault` / `unlock_vault` commands
over that symbolic model. -/

namespace Sym

/-- `core_crypto::ArgonParams`. -/
structure ArgonParams where
  mem_kib : Nat
  iterations : Nat
  parallelism : Nat
deriving Repr, DecidableEq

/-- Symbolic ciphertext of the external `aes_gcm` crate: an ideal AEAD,
recording nonce, key, AAD and plaintext.  Its stored byte form is
`nonce(12) || ciphertext || tag(16)` with ciphertext as long as the
plaintext. -/
structure Sealed where
  nonce : Bytes
  key : Bytes
  aad : Bytes
  pt : Bytes
deriving Repr, DecidableEq

/-- Byte length of the stored form of a sealed box. -/
def Sealed.byteLength (c : Sealed) : Nat := 12 + (c.pt.length + 16)

/-- `core_crypto::derive_kek`: Argon2id v1.3.  The external `argon2` crate
is modelled as an ideal KDF: deterministic, and injective in the master
for fixed salt and parameters. -/
def derive_kek (master : Bytes) (params : ArgonParams) (salt : Bytes) : Bytes :=
  salt ++ [params.mem_kib, params.iterations, params.parallelism] ++ master

/-- `core_crypto::wrap_key_aes_gcm` over the ideal AEAD. -/
def wrap_key_aes_gcm (kek dek nonce12 : Bytes) : Sealed :=
  ⟨nonce12, kek, [], dek⟩

/-- `core_crypto::unwrap_key_aes_gcm` over the ideal AEAD: length check,
then decryption succeeds exactly when the key matches (the AAD is empty on
both sides), then `out.copy_from_slice(&dek[..32])`. -/
def unwrap_key_aes_gcm (kek : Bytes) (w : Sealed) : KeyResult :=
  if w.byteLength < 12 + 16 then .malformedCiphertext
  else if w.key = kek ∧ w.aad = [] then
    if w.pt.length < 32 then .panicked else .ok (w.pt.take 32)
  else .authenticationFailed

/-- `vault_store::VaultHeader` (the wrapped DEK held symbolically). -/
structure VaultHeader where
  magic : Bytes
  version : Nat
  kdf_params : ArgonParams
  salt_kek : Bytes
  wrapped_dek : Sealed
deriving Repr, DecidableEq

/-- The five magic bytes `"SVLT1"`. -/
def magicBytes : Bytes := [83, 86, 76, 84, 49]

/-- The `create_vault` command (`main.rs`): derive the KEK from the master
and a fresh salt, wrap a fresh DEK under it, and build the header.  The
randomness (salt, DEK, nonce) is passed explicitly. -/
def create_vault (master salt dek nonce : Bytes) (params : ArgonParams) : VaultHeader :=
  { magic := magicBytes
  , version := 1
  , kdf_params := params
  , salt_kek := salt
  , wrapped_dek := wrap_key_aes_gcm (derive_kek master params salt) dek nonce }

/-- Outcome of the `unlock_vault` command. -/
inductive UnlockResult where
  | ok (b : Bool)
  | invalidHeader
  | malformedCiphertext
  | authenticationFailed
  | panicked
deriving Repr, DecidableEq

/-- The `unlock_vault` command on a decoded header: `VaultStore::open`
validates magic and version, the KEK is re-derived with the stored
parameters and salt, and the DEK unwrap is attempted; success returns
`Ok(true)`.  (The postcard round-trip of the header through the file is
elided: `open` reads back exactly the header `create` wrote.) -/
def unlock_vault (hdr : VaultHeader) (master : Bytes) : UnlockResult :=
  if hdr.magic = magicBytes ∧ hdr.version = 1 then
    match unwrap_key_aes_gcm (derive_kek master hdr.kdf_params hdr.salt_kek) hdr.wrapped_dek with
    | .ok _ => .ok true
    | .malformedCiphertext => .malformedCiphertext
    | .authenticationFailed => .authenticationFailed
    | .panicked => .panicked
  else .invalidHeader

end Sym

/-! ## Password generator (`core_crypto::generate_password`)

`rand::thread_rng` is modelled as a stream of naturals with a cursor;
`gen_range(0..n)` takes the next value mod `n`.  Characters are Lean
`Char`s; `String::len` equals the character count here because every pool
character is ASCII. -/

structure PasswordRules where
  length : Nat
  use_uppercase : Bool
  use_lowercase : Bool
  use_digits : Bool
  use_symbols : Bool
  exclude_ambiguous : Bool
  require_each_type : Bool
deriving Repr, DecidableEq

structure Rng where
  stream : Nat → Nat
  idx : Nat

/-- `rng.gen_range(0..n)` (`n > 0` at every call site). -/
def gen_range_lt (r : Rng) (n : Nat) : Nat × Rng :=
  (r.stream r.idx % n, ⟨r.stream, r.idx + 1⟩)

def uppercase_all : List Char := "ABCDEFGHIJKLMNOPQRSTUVWXYZ".toList

def lowercase_all : List Char := "abcdefghijklmnopqrstuvwxyz".toList

def digits_all : List Char := "0123456789".toList

def symbols_all : List Char := "!@#$%^&*()_+-=[]\x7b\x7d|;:,.<>?".toList
/-- Uppercase with ambiguous `I`, `O` removed. -/

def uppercase_na : List Char := "ABCDEFGHJKLMNPQRSTUVWXYZ".toList
/-- Lowercase with ambiguous `i`, `l`, `o` removed. -/

def lowercase_na : List Char := "abcdefghjkmnpqrstuvwxyz".toList
/-- Digits with ambiguous `0`, `1` removed. -/

def digits_na : List Char := "23456789".toList

def pool_upper (rules : PasswordRules) : List Char :=
  if rules.exclude_ambiguous then uppercase_na else uppercase_all

def pool_lower (rules : PasswordRules) : List Char :=
  if rules.exclude_ambiguous then lowercase_na else lowercase_all

def pool_digits (rules : PasswordRules) : List Char :=
  if rules.exclude_ambiguous then digits_na else digits_all
/-- The symbol pool is the same string in both branches of the source. -/

def pool_symbols (_rules : PasswordRules) : List Char := symbols_all

/-- The combined pool, pushed in source order: upper, lower, digits,
symbols. -/
def charset_of (rules : PasswordRules) : List Char :=
  (if rules.use_uppercase then pool_upper rules else []) ++
  (if rules.use_lowercase then pool_lower rules else []) ++
  (if rules.use_digits then pool_digits rules else []) ++
  (if rules.use_symbols then pool_symbols rules else [])

/-- `pool[rng.gen_range(0..pool.len())]` (pool nonempty at every call). -/
def pick (rng : Rng) (pool : List Char) : Char × Rng :=
  let (j, rng') := gen_range_lt rng pool.length
  (pool.getD j 'a', rng')

/-- One conditional seeding step of the `require_each_type` block:
`if flag && !pool.is_empty() { password.push(pool[rng.gen_range(..)]) }`. -/
def seed_one (flag : Bool) (pool : List Char) (st : List Char × Rng) : List Char × Rng :=
  if flag && !pool.isEmpty then
    let (c, rng') := pick st.2 pool
    (st.1 ++ [c], rng')
  else st

/-- The seeding phase: one character from each enabled pool, in the fixed
source order upper, lower, digits, symbols. -/
def seeded (rules : PasswordRules) (rng : Rng) : List Char × Rng :=
  if rules.require_each_type then
    seed_one rules.use_symbols (pool_symbols rules)
      (seed_one rules.use_digits (pool_digits rules)
        (seed_one rules.use_lowercase (pool_lower rules)
          (seed_one rules.use_uppercase (pool_upper rules) ([], rng))))
  else ([], rng)

/-- The fill loop `while password.len() < rules.length { push random }`,
which appends exactly `rules.length - password.len()` characters; the
count is taken as an explicit argument. -/
def fill_loop (chars : List Char) : Nat → List Char → Rng → List Char × Rng
  | 0, acc, rng => (acc, rng)
  | k + 1, acc, rng =>
      let (c, rng') := pick rng chars
      fill_loop chars k (acc ++ [c]) rng'

/-- `password_chars.swap(i, j)` on a list. -/
def list_swap (l : List Char) (i j : Nat) : List Char :=
  (l.set i (l.getD j 'a')).set j (l.getD i 'a')

/-- The Fisher-Yates loop `for i in (1..len).rev() { let j =
rng.gen_range(0..=i); swap(i, j) }`; the counter argument is the current
value of `i`. -/
def shuffle_loop : Nat → List Char → Rng → List Char × Rng
  | 0, l, rng => (l, rng)
  | i + 1, l, rng =>
      let (j, rng') := gen_range_lt rng (i + 2)
      shuffle_loop i (list_swap l (i + 1) j) rng'

def shuffle (l : List Char) (rng : Rng) : List Char × Rng :=
  shuffle_loop (l.length - 1) l rng

/-- `core_crypto::generate_password`. -/
def generate_password (rng : Rng) (rules : PasswordRules) : List Char :=
  if (charset_of rules).isEmpty then "password".toList
  else
    let st1 := seeded rules rng
    let st2 := fill_loop (charset_of rules) (rules.length - st1.1.length) st1.1 st1.2
    (shuffle st2.1 st2.2).1

/-- `core_crypto::generate_pronounceable_password`: consonant at even
index, vowel at odd index. -/
def vowels : List Char := "aeiou".toList

def consonants : List Char := "bcdfghjklmnpqrstvwxyz".toList

def generate_pronounceable_password (rng : Rng) (length : Nat) : List Char :=
  (List.range length).foldl
    (fun st i =>
      let pool := if i % 2 = 0 then consonants else vowels
      let (c, rng') := pick st.2 pool
      (st.1 ++ [c], rng'))
    (([] : List Char), rng) |>.1

/-- Number of characters the seeding phase appends (every pool constant is
nonempty, so each enabled pool contributes exactly one). -/
def seed_count (rules : PasswordRules) : Nat :=
  if rules.require_each_type then
    (if rules.use_uppercase then 1 else 0) + (if rules.use_lowercase then 1 else 0) +
    (if rules.use_digits then 1 else 0) + (if rules.use_symbols then 1 else 0)
  else 0

/-- Well-formedness of one CRUD operation: its record has a 16-byte UUID
and a framed length that fits in a `u32`. -/
def WfOp (op : Op) : Prop :=
  (record_of op).id.length = 16
    ∧ (encodeEntry (record_of op)).length + 60 < 4294967296

instance (op : Op) : Decidable (WfOp op) := by
  unfold WfOp
  infer_instance

/-! ## Lemmas and theorems -/

theorem ops_records_map_fst (nonces : Nat → Bytes) :
    ∀ (ops : List Op) (i : Nat),
      (ops_records nonces ops i).map Prod.fst = ops.map record_of := by
  intro ops
  induction ops with
  | nil => intro i; rfl
  | cons op rest ih =>
      intro i
      simp only [ops_records, List.map_cons, ih]

theorem ops_records_wf (nonces : Nat → Bytes) (hn : ∀ i, (nonces i).length = 12) :
    ∀ (ops : List Op) (i : Nat), (∀ op ∈ ops, WfOp op) →
      ∀ p ∈ ops_records nonces ops i, WfRecord p.1 p.2 := by
  intro ops
  induction ops with
  | nil => intro i _ p hp; simp [ops_records] at hp
  | cons op rest ih =>
      intro i hops p hp
      simp only [ops_records, List.mem_cons] at hp
      rcases hp with hp | hp
      · obtain ⟨h16, hsz⟩ := hops op (List.mem_cons_self _ _)
        subst hp
        exact ⟨h16, hn i, hsz⟩
      · exact ih (i + 1) (fun o ho => hops o (List.mem_cons_of_mem _ ho)) p hp

theorem leU32_u32le (n : Nat) (h : n < 4294967296) :
    leU32 (n % 256) (n / 256 % 256) (n / 65536 % 256) (n / 16777216 % 256) = n := by
  unfold leU32
  omega

theorem readVarint_varintAux (fuel : Nat) :
    ∀ n rest, n < fuel → readVarint (varintAux fuel n ++ rest) = some (n, rest) := by
  induction fuel with
  | zero => intro n rest h; omega
  | succ f ih =>
      intro n rest h
      by_cases hn : n < 128
      · simp [varintAux, hn, readVarint]
      · have hdiv : n / 128 < f := by omega
        simp only [varintAux, if_neg hn, List.cons_append, readVarint]
        rw [if_neg (by omega), ih (n / 128) rest hdiv]
        simp only [Option.some.injEq, Prod.mk.injEq]
        refine ⟨by omega, by simp⟩

theorem readVarint_varint (n : Nat) (rest : Bytes) :
    readVarint (varint n ++ rest) = some (n, rest) :=
  readVarint_varintAux (n + 1) n rest (Nat.lt_succ_self n)

theorem varint_ne_nil (n : Nat) : varint n ≠ [] := by
  unfold varint varintAux
  by_cases hn : n < 128 <;> simp [hn]

theorem readField_append (l rest : Bytes) :
    readField (varint l.length ++ (l ++ rest)) = some (l, rest) := by
  unfold readField
  rw [readVarint_varint]
  simp

theorem readField_whole (l : Bytes) :
    readField (varint l.length ++ l) = some (l, []) := by
  have h := readField_append l []
  simpa using h

theorem decodeEntry_encodeEntry (e : VaultEntry) (h : e.id.length = 16) :
    decodeEntry (encodeEntry e) = some e := by
  obtain ⟨i, t, u, p⟩ := e
  have h16 : List.length i = 16 := h
  simp only [encodeEntry, decodeEntry, List.append_assoc, readField_append, readField_whole]
  rw [if_pos h16]

theorem aead_decrypt_encrypt (key nonce pt aad : Bytes) :
    aead_decrypt_aes_gcm key (aead_encrypt_aes_gcm key nonce pt aad) nonce aad
      = some pt := by
  unfold aead_encrypt_aes_gcm aead_decrypt_aes_gcm
  have hlen : (pt ++ tag16 key nonce aad pt).length = pt.length + 16 := by
    simp [tag16]
  rw [hlen]
  have h1 : pt.length + 16 - 16 = pt.length := by omega
  rw [if_neg (by omega), h1, List.take_left, List.drop_left]
  simp

theorem length_aead_encrypt (key nonce pt aad : Bytes) :
    (aead_encrypt_aes_gcm key nonce pt aad).length = pt.length + 16 := by
  simp [aead_encrypt_aes_gcm, tag16]

/-! ### Replay lemmas -/

theorem read_records_short (dek : Bytes) (fuel : Nat) (bs : Bytes)
    (acc : List VaultEntry) (h : bs.length < 4) :
    read_records dek fuel bs acc = .ok acc := by
  cases fuel with
  | zero => rfl
  | succ f =>
      match bs with
      | [] => rfl
      | [_] => rfl
      | [_, _] => rfl
      | [_, _, _] => rfl
      | _ :: _ :: _ :: _ :: _ => simp at h; omega

theorem read_records_succ_cons (dek : Bytes) (fuel : Nat) (b0 b1 b2 b3 : Nat)
    (body : Bytes) (acc : List VaultEntry) :
    read_records dek (fuel + 1) (b0 :: b1 :: b2 :: b3 :: body) acc =
      (if leU32 b0 b1 b2 b3 < 16 + 12 + 16 then .ok acc
       else if body.length < 16 then .err .unexpectedEof
       else if body.length < 16 + 12 then .err .unexpectedEof
       else if body.length < leU32 b0 b1 b2 b3 then .err .unexpectedEof
       else
         match aead_decrypt_aes_gcm (derive_item_key dek (body.take 16))
             ((body.drop 28).take (leU32 b0 b1 b2 b3 - 28)) ((body.drop 16).take 12)
             (body.take 16) with
         | none => .panicked
         | some pt =>
             match decodeEntry pt with
             | none => .err .invalidData
             | some e =>
                 read_records dek fuel (body.drop (leU32 b0 b1 b2 b3)) (acc ++ [e])) := rfl

/-- Unfolding of one loop iteration on a frame whose 4-byte length field
decodes to `L`. -/
theorem read_records_cons (dek : Bytes) (fuel : Nat) (L : Nat) (body : Bytes)
    (acc : List VaultEntry) (hL : L < 4294967296) :
    read_records dek (fuel + 1) (u32le L ++ body) acc =
      (if L < 16 + 12 + 16 then .ok acc
       else if body.length < 16 then .err .unexpectedEof
       else if body.length < 16 + 12 then .err .unexpectedEof
       else if body.length < L then .err .unexpectedEof
       else
         match aead_decrypt_aes_gcm (derive_item_key dek (body.take 16))
             ((body.drop 28).take (L - 28)) ((body.drop 16).take 12) (body.take 16) with
         | none => .panicked
         | some pt =>
             match decodeEntry pt with
             | none => .err .invalidData
             | some e => read_records dek fuel (body.drop L) (acc ++ [e])) := by
  have hsplit : u32le L ++ body
      = (L % 256) :: (L / 256 % 256) :: (L / 65536 % 256) :: (L / 16777216 % 256) :: body := rfl
  rw [hsplit, read_records_succ_cons, leU32_u32le L hL]

theorem length_write_entry_frame (dek nonce : Bytes) (e : VaultEntry) :
    (write_entry_frame dek nonce e).length
      = 4 + e.id.length + nonce.length + (encodeEntry e).length + 16 := by
  simp [write_entry_frame, u32le, length_aead_encrypt]
  omega

/-- One loop iteration consumes exactly one well-formed written frame and
appends its entry to the accumulator. -/
theorem read_records_step (dek : Bytes) (fuel : Nat) (e : VaultEntry)
    (nonce rest : Bytes) (acc : List VaultEntry) (hwf : WfRecord e nonce) :
    read_records dek (fuel + 1) (write_entry_frame dek nonce e ++ rest) acc
      = read_records dek fuel rest (acc ++ [e]) := by
  obtain ⟨hid, hn, hfit⟩ := hwf
  have hctlen : (aead_encrypt_aes_gcm (derive_item_key dek e.id) nonce (encodeEntry e) e.id).length
      = (encodeEntry e).length + 16 := length_aead_encrypt ..
  set ct := aead_encrypt_aes_gcm (derive_item_key dek e.id) nonce (encodeEntry e) e.id with hct
  have hframe : write_entry_frame dek nonce e ++ rest
      = u32le (16 + 12 + ct.length) ++ (e.id ++ (nonce ++ (ct ++ rest))) := by
    simp [write_entry_frame, List.append_assoc]
  rw [hframe, read_records_cons dek fuel _ _ acc (by omega)]
  have hbodylen : (e.id ++ (nonce ++ (ct ++ rest))).length
      = 28 + ct.length + rest.length := by simp [hid, hn]; omega
  rw [if_neg (by omega), if_neg (by omega), if_neg (by omega), if_neg (by omega)]
  have htake : (e.id ++ (nonce ++ (ct ++ rest))).take 16 = e.id :=
    List.take_left' hid
  have hdrop16 : (e.id ++ (nonce ++ (ct ++ rest))).drop 16 = nonce ++ (ct ++ rest) :=
    List.drop_left' hid
  have hdrop28 : (e.id ++ (nonce ++ (ct ++ rest))).drop 28 = ct ++ rest := by
    have h1 : ((e.id ++ nonce) ++ (ct ++ rest)).drop 28 = ct ++ rest :=
      List.drop_left' (by simp [hid, hn])
    simpa [List.append_assoc] using h1
  have hdropL : (e.id ++ (nonce ++ (ct ++ rest))).drop (16 + 12 + ct.length) = rest := by
    have h1 : ((e.id ++ nonce ++ ct) ++ rest).drop (16 + 12 + ct.length) = rest :=
      List.drop_left' (by simp [hid, hn]; omega)
    simpa [List.append_assoc] using h1
  rw [htake, hdrop16, hdrop28, hdropL]
  rw [List.take_left' hn]
  have hctTake : (ct ++ rest).take (16 + 12 + ct.length - 28) = ct := by
    have h1 : 16 + 12 + ct.length - 28 = ct.length := by omega
    rw [h1, List.take_left]
  rw [hctTake, hct, aead_decrypt_encrypt]
  simp only [decodeEntry_encodeEntry e hid]

/-- Each frame in a region is at least 4 bytes long. -/
theorem length_log_region_ge (dek : Bytes) (ps : List (VaultEntry × Bytes)) :
    ps.length ≤ (log_region dek ps).length := by
  induction ps with
  | nil => simp [log_region]
  | cons p rest ih =>
      obtain ⟨e, n⟩ := p
      simp only [log_region, List.length_append, length_write_entry_frame, List.length_cons]
      omega

/-- Replaying a region of well-formed frames consumes them all, appending
their entries in order, and continues on the remaining bytes. -/
theorem read_records_region (dek : Bytes) (ps : List (VaultEntry × Bytes)) :
    ∀ fuel acc rest, (∀ p ∈ ps, WfRecord p.1 p.2) → ps.length < fuel →
      read_records dek fuel (log_region dek ps ++ rest) acc
        = read_records dek (fuel - ps.length) rest (acc ++ ps.map Prod.fst) := by
  induction ps with
  | nil => intro fuel acc rest _ _; simp [log_region]
  | cons p tail ih =>
      intro fuel acc rest hwf hfuel
      obtain ⟨e, n⟩ := p
      obtain ⟨f, rfl⟩ : ∃ f, fuel = f + 1 :=
        ⟨fuel - 1, by omega⟩
      simp only [log_region, List.append_assoc]
      rw [read_records_step dek f e n _ acc (hwf (e, n) (List.mem_cons_self _ _))]
      rw [ih f (acc ++ [e]) rest (fun p hp => hwf p (List.mem_cons_of_mem _ hp)) (by simpa using hfuel)]
      simp

/-- `read_all_entries` on a region written purely by `write_entry` calls
returns exactly the written entries in append order. -/
theorem read_all_entries_region (dek : Bytes) (ps : List (VaultEntry × Bytes))
    (hwf : ∀ p ∈ ps, WfRecord p.1 p.2) :
    read_all_entries dek (log_region dek ps) = .ok (ps.map Prod.fst) := by
  unfold read_all_entries
  have h1 : log_region dek ps = log_region dek ps ++ [] := by simp
  rw [h1, read_records_region dek ps _ [] [] hwf
    (by have := length_log_region_ge dek ps; simp; omega)]
  rw [read_records_short dek _ [] _ (by simp)]
  simp

/-! ### Correspondence of the `HashMap` fold with the spec-side map -/

theorem assoc_lookup_map_ne (m : List (Bytes × Bytes)) (k v k' : Bytes) (hk : k' ≠ k) :
    assoc_lookup (m.map fun p => if p.1 = k then (k, v) else p) k'
      = assoc_lookup m k' := by
  induction m with
  | nil => rfl
  | cons a m ih =>
      unfold assoc_lookup at *
      by_cases hak : a.1 = k
      · simp only [List.map_cons, if_pos hak]
        rw [List.find?_cons_of_neg _ (by simp [Ne.symm hk]),
            List.find?_cons_of_neg _ (by simp [hak, Ne.symm hk])]
        exact ih
      · simp only [List.map_cons, if_neg hak]
        by_cases ha' : a.1 = k'
        · rw [List.find?_cons_of_pos _ (by simp [ha']),
              List.find?_cons_of_pos _ (by simp [ha'])]
        · rw [List.find?_cons_of_neg _ (by simp [ha']),
              List.find?_cons_of_neg _ (by simp [ha'])]
          exact ih

theorem assoc_lookup_map_eq (m : List (Bytes × Bytes)) (k v : Bytes)
    (hmem : m.any fun p => decide (p.1 = k)) :
    assoc_lookup (m.map fun p => if p.1 = k then (k, v) else p) k = some v := by
  induction m with
  | nil => simp at hmem
  | cons a m ih =>
      unfold assoc_lookup at *
      by_cases hak : a.1 = k
      · simp only [List.map_cons, if_pos hak]
        rw [List.find?_cons_of_pos _ (by simp)]
        rfl
      · simp only [List.map_cons, if_neg hak]
        rw [List.find?_cons_of_neg _ (by simp [hak])]
        exact ih (by simpa [hak] using hmem)

theorem assoc_lookup_append_single (m : List (Bytes × Bytes)) (k v k' : Bytes) :
    assoc_lookup (m ++ [(k, v)]) k'
      = if k' = k then (assoc_lookup m k).orElse (fun _ => some v)
        else assoc_lookup m k' := by
  induction m with
  | nil =>
      by_cases hk : k' = k
      · subst hk; simp [assoc_lookup]
      · rw [if_neg hk]
        unfold assoc_lookup
        rw [List.nil_append, List.find?_cons_of_neg _ (by
          simp only [decide_eq_true_eq]
          exact fun h => hk h.symm)]
  | cons a m ih =>
      by_cases hk : k' = k
      · subst hk
        rw [if_pos rfl] at ih ⊢
        unfold assoc_lookup at *
        rw [List.cons_append]
        by_cases ha : a.1 = k'
        · rw [List.find?_cons_of_pos _ (by simp [ha]),
              List.find?_cons_of_pos _ (by simp [ha])]
          rfl
        · rw [List.find?_cons_of_neg _ (by simp [ha]),
              List.find?_cons_of_neg _ (by simp [ha])]
          exact ih
      · rw [if_neg hk] at ih ⊢
        unfold assoc_lookup at *
        rw [List.cons_append]
        by_cases ha : a.1 = k'
        · rw [List.find?_cons_of_pos _ (by simp [ha]),
              List.find?_cons_of_pos _ (by simp [ha])]
        · rw [List.find?_cons_of_neg _ (by simp [ha]),
              List.find?_cons_of_neg _ (by simp [ha])]
          exact ih

theorem assoc_lookup_hm_insert (m : List (Bytes × Bytes)) (k v k' : Bytes) :
    assoc_lookup (hm_insert m k v) k'
      = if k' = k then some v else assoc_lookup m k' := by
  unfold hm_insert
  by_cases hmem : m.any fun p => decide (p.1 = k)
  · rw [if_pos hmem]
    by_cases hk : k' = k
    · rw [if_pos hk, hk, assoc_lookup_map_eq m k v hmem]
    · rw [if_neg hk, assoc_lookup_map_ne m k v k' hk]
  · rw [if_neg hmem, assoc_lookup_append_single]
    by_cases hk : k' = k
    · rw [if_pos hk, if_pos hk]
      have hnone : assoc_lookup m k = none := by
        unfold assoc_lookup
        have hf : List.find? (fun p => decide (p.1 = k)) m = none := by
          rw [List.find?_eq_none]
          intro p hp
          by_contra hc
          exact hmem (List.any_eq_true.mpr ⟨p, hp, by simpa using hc⟩)
        rw [hf]
        rfl
      rw [hnone]
      rfl
    · rw [if_neg hk, if_neg hk]

theorem assoc_lookup_hm_remove (m : List (Bytes × Bytes)) (k k' : Bytes) :
    assoc_lookup (hm_remove m k) k'
      = if k' = k then none else assoc_lookup m k' := by
  unfold hm_remove
  induction m with
  | nil => by_cases hk : k' = k <;> simp [assoc_lookup, hk]
  | cons a m ih =>
      by_cases hak : a.1 = k
      · rw [show List.filter (fun p => decide (p.1 ≠ k)) (a :: m)
            = List.filter (fun p => decide (p.1 ≠ k)) m from by
              simp [List.filter_cons, hak]]
        rw [ih]
        by_cases hk : k' = k
        · rw [if_pos hk, if_pos hk]
        · rw [if_neg hk, if_neg hk]
          unfold assoc_lookup
          rw [List.find?_cons_of_neg _ (by
            simp only [decide_eq_true_eq]
            rw [hak]
            exact fun h => hk h.symm)]
      · rw [show List.filter (fun p => decide (p.1 ≠ k)) (a :: m)
            = a :: List.filter (fun p => decide (p.1 ≠ k)) m from by
              simp [List.filter_cons, hak]]
        by_cases ha' : a.1 = k'
        · by_cases hk : k' = k
          · exact absurd (hk ▸ ha') hak
          · rw [if_neg hk]
            unfold assoc_lookup
            rw [List.find?_cons_of_pos _ (by simp [ha']),
                List.find?_cons_of_pos _ (by simp [ha'])]
        · unfold assoc_lookup at *
          rw [List.find?_cons_of_neg _ (by simp [ha'])]
          by_cases hk : k' = k
          · rw [if_pos hk] at ih ⊢
            exact ih
          · rw [if_neg hk] at ih ⊢
            rw [List.find?_cons_of_neg _ (by simp [ha'])]
            exact ih

/-- Keys of the map are untouched by an overwriting insert. -/
theorem keys_map_overwrite (m : List (Bytes × Bytes)) (k v : Bytes) :
    (m.map fun p => if p.1 = k then (k, v) else p).map Prod.fst
      = m.map Prod.fst := by
  induction m with
  | nil => rfl
  | cons a m ih =>
      by_cases hak : a.1 = k <;> simp [hak, ih]

theorem nodup_hm_insert (m : List (Bytes × Bytes)) (k v : Bytes)
    (h : (m.map Prod.fst).Nodup) :
    ((hm_insert m k v).map Prod.fst).Nodup := by
  unfold hm_insert
  by_cases hmem : m.any fun p => decide (p.1 = k)
  · rw [if_pos hmem, keys_map_overwrite]
    exact h
  · rw [if_neg hmem]
    rw [List.map_append, List.nodup_append]
    refine ⟨h, List.nodup_singleton k, ?_⟩
    intro x hx hxk
    simp only [List.map_cons, List.map_nil, List.mem_singleton] at hxk
    subst hxk
    simp only [List.mem_map] at hx
    obtain ⟨p, hp, hpk⟩ := hx
    exact hmem (List.any_eq_true.mpr ⟨p, hp, by simp [hpk]⟩)

theorem nodup_hm_remove (m : List (Bytes × Bytes)) (k : Bytes)
    (h : (m.map Prod.fst).Nodup) :
    ((hm_remove m k).map Prod.fst).Nodup :=
  h.sublist ((List.filter_sublist m).map Prod.fst)

/-- The `HashMap` fold of `list_active_entries`, started from any map,
refines the spec-side replay map: lookups agree and keys stay distinct. -/
theorem active_foldl_spec (rs : List VaultEntry) :
    ∀ (m : List (Bytes × Bytes)) (f : Bytes → Option Bytes),
      (m.map Prod.fst).Nodup → (∀ k, assoc_lookup m k = f k) →
      ((rs.foldl active_step m).map Prod.fst).Nodup ∧
        ∀ k, assoc_lookup (rs.foldl active_step m) k = rs.foldl spec_step f k := by
  induction rs with
  | nil => intro m f hnd hlook; exact ⟨hnd, fun k => by simpa using hlook k⟩
  | cons r rs ih =>
      intro m f hnd hlook
      simp only [List.foldl_cons]
      by_cases htomb : r.title = [] ∧ r.username = [] ∧ r.password = []
      · rw [show active_step m r = hm_remove m r.id from by simp [active_step, htomb]]
        refine ih (hm_remove m r.id) (spec_step f r) (nodup_hm_remove m r.id hnd) ?_
        intro k
        rw [assoc_lookup_hm_remove, spec_step, if_pos htomb]
        by_cases hk : k = r.id
        · rw [if_pos hk, if_pos hk]
        · rw [if_neg hk, if_neg hk, hlook k]
      · rw [show active_step m r = hm_insert m r.id r.title by
          simp [active_step, htomb]]
        refine ih (hm_insert m r.id r.title) (spec_step f r)
          (nodup_hm_insert m r.id r.title hnd) ?_
        intro k
        rw [assoc_lookup_hm_insert, spec_step, if_neg htomb]
        by_cases hk : k = r.id
        · rw [if_pos hk, if_pos hk]
        · rw [if_neg hk, if_neg hk, hlook k]

theorem active_fold_spec (rs : List VaultEntry) :
    ((active_fold rs).map Prod.fst).Nodup ∧
      ∀ k, assoc_lookup (active_fold rs) k = spec_replay rs k :=
  active_foldl_spec rs [] (fun _ => none) (by simp) (fun _ => rfl)

theorem read_all_entries_file_cons (dek : Bytes) (b0 b1 b2 b3 : Nat) (rest : Bytes) :
    read_all_entries_file dek (b0 :: b1 :: b2 :: b3 :: rest)
      = read_all_entries dek (rest.drop (leU32 b0 b1 b2 b3)) := rfl

/-- Truncating a well-formed file at byte offset `4 + header_len + k`
leaves exactly the first `k` bytes of the record region to replay. -/
theorem read_all_entries_file_take (dek hdr region : Bytes) (k : Nat)
    (hl : hdr.length < 4294967296) :
    read_all_entries_file dek ((u32le hdr.length ++ hdr ++ region).take (4 + hdr.length + k))
      = read_all_entries dek (region.take k) := by
  have h4 : (u32le hdr.length).length = 4 := rfl
  rw [List.append_assoc, List.take_append_eq_append_take, h4]
  rw [List.take_of_length_le (by rw [h4]; omega)]
  have hk : 4 + hdr.length + k - 4 = hdr.length + k := by omega
  rw [hk, List.take_append_eq_append_take, List.take_of_length_le (by omega)]
  have hk2 : hdr.length + k - hdr.length = k := by omega
  rw [hk2]
  have hcons : u32le hdr.length ++ (hdr ++ region.take k)
      = (hdr.length % 256) :: (hdr.length / 256 % 256) :: (hdr.length / 65536 % 256) ::
        (hdr.length / 16777216 % 256) :: (hdr ++ region.take k) := rfl
  rw [hcons, read_all_entries_file_cons, leU32_u32le _ hl, List.drop_left]

/-! ### Generator lemmas: the shuffle is membership- and
length-preserving -/

theorem length_list_swap (l : List Char) (i j : Nat) :
    (list_swap l i j).length = l.length := by
  simp [list_swap]

theorem getElem_list_swap (l : List Char) (i j k : Nat) (hi : i < l.length)
    (hj : j < l.length) (hk : k < (list_swap l i j).length) (hk' : k < l.length) :
    (list_swap l i j)[k] = if k = j then l[i] else if k = i then l[j] else l[k] := by
  unfold list_swap
  simp only [List.getElem_set]
  split_ifs <;>
    first
      | omega
      | rfl
      | exact List.getD_eq_getElem l 'a' hi
      | exact List.getD_eq_getElem l 'a' hj

theorem mem_list_swap (l : List Char) (i j : Nat) (hi : i < l.length)
    (hj : j < l.length) (a : Char) : a ∈ list_swap l i j ↔ a ∈ l := by
  have hlen : (list_swap l i j).length = l.length := length_list_swap l i j
  constructor
  · intro ha
    obtain ⟨k, hk, hke⟩ := List.mem_iff_getElem.mp ha
    have hk' : k < l.length := by omega
    rw [getElem_list_swap l i j k hi hj hk hk'] at hke
    split_ifs at hke
    · exact hke ▸ List.getElem_mem hi
    · exact hke ▸ List.getElem_mem hj
    · exact hke ▸ List.getElem_mem hk'
  · intro ha
    obtain ⟨k, hk, hke⟩ := List.mem_iff_getElem.mp ha
    by_cases hkj : k = j
    · refine List.mem_iff_getElem.mpr ⟨i, by omega, ?_⟩
      rw [getElem_list_swap l i j i hi hj (by omega) hi]
      by_cases hij : i = j
      · rw [if_pos hij]
        subst hkj; subst hij
        exact hke
      · rw [if_neg hij, if_pos rfl]
        subst hkj
        exact hke
    · by_cases hki : k = i
      · refine List.mem_iff_getElem.mpr ⟨j, by omega, ?_⟩
        rw [getElem_list_swap l i j j hi hj (by omega) hj, if_pos rfl]
        subst hki
        exact hke
      · refine List.mem_iff_getElem.mpr ⟨k, by omega, ?_⟩
        rw [getElem_list_swap l i j k hi hj (by omega) (by omega),
          if_neg hkj, if_neg hki]
        exact hke

theorem length_shuffle_loop : ∀ (i : Nat) (l : List Char) (rng : Rng),
    ((shuffle_loop i l rng).1).length = l.length := by
  intro i
  induction i with
  | zero => intro l rng; rfl
  | succ i ih =>
      intro l rng
      simp only [shuffle_loop]
      rw [ih, length_list_swap]

theorem mem_shuffle_loop : ∀ (i : Nat) (l : List Char) (rng : Rng), i < l.length →
    ∀ a, (a ∈ (shuffle_loop i l rng).1 ↔ a ∈ l) := by
  intro i
  induction i with
  | zero => intro l rng _ a; exact Iff.rfl
  | succ i ih =>
      intro l rng hi a
      have hj : (gen_range_lt rng (i + 2)).1 < l.length := by
        have : (gen_range_lt rng (i + 2)).1 < i + 2 :=
          Nat.mod_lt _ (Nat.succ_pos _)
        omega
      simp only [shuffle_loop]
      rw [ih (list_swap l (i + 1) (gen_range_lt rng (i + 2)).1) _
        (by rw [length_list_swap]; omega) a]
      exact mem_list_swap l (i + 1) _ hi hj a

theorem length_shuffle (l : List Char) (rng : Rng) :
    ((shuffle l rng).1).length = l.length :=
  length_shuffle_loop ..

theorem mem_shuffle (l : List Char) (rng : Rng) (a : Char) :
    a ∈ (shuffle l rng).1 ↔ a ∈ l := by
  unfold shuffle
  rcases l with _ | ⟨x, xs⟩
  · exact Iff.rfl
  · exact mem_shuffle_loop _ _ rng (by simp) a

/-! ### Generator lemmas: pools, seeding and filling -/

theorem pick_mem (rng : Rng) (pool : List Char) (h : pool ≠ []) :
    (pick rng pool).1 ∈ pool := by
  have hlen : 0 < pool.length := List.length_pos.mpr h
  have hj : rng.stream rng.idx % pool.length < pool.length := Nat.mod_lt _ hlen
  have hpick : (pick rng pool).1 = pool.getD (rng.stream rng.idx % pool.length) 'a' := rfl
  rw [hpick, List.getD_eq_getElem pool 'a' hj]
  exact List.getElem_mem hj

theorem fill_loop_length (chars : List Char) : ∀ (k : Nat) (acc : List Char) (rng : Rng),
    ((fill_loop chars k acc rng).1).length = acc.length + k := by
  intro k
  induction k with
  | zero => intro acc rng; rfl
  | succ k ih =>
      intro acc rng
      simp only [fill_loop]
      rw [ih]
      simp
      omega

theorem fill_loop_mem (chars : List Char) (hc : chars ≠ []) :
    ∀ (k : Nat) (acc : List Char) (rng : Rng) (a : Char),
      a ∈ (fill_loop chars k acc rng).1 → a ∈ acc ∨ a ∈ chars := by
  intro k
  induction k with
  | zero => intro acc rng a ha; exact Or.inl ha
  | succ k ih =>
      intro acc rng a ha
      simp only [fill_loop] at ha
      rcases ih _ _ _ ha with h1 | h2
      · rcases List.mem_append.mp h1 with h3 | h4
        · exact Or.inl h3
        · have : a = (pick rng chars).1 := by simpa using h4
          exact Or.inr (this ▸ pick_mem rng chars hc)
      · exact Or.inr h2

theorem fill_loop_keeps (chars : List Char) :
    ∀ (k : Nat) (acc : List Char) (rng : Rng) (a : Char),
      a ∈ acc → a ∈ (fill_loop chars k acc rng).1 := by
  intro k
  induction k with
  | zero => intro acc rng a ha; exact ha
  | succ k ih =>
      intro acc rng a ha
      simp only [fill_loop]
      exact ih _ _ _ (List.mem_append.mpr (Or.inl ha))

theorem seed_one_length (flag : Bool) (pool : List Char) (st : List Char × Rng) :
    ((seed_one flag pool st).1).length
      = st.1.length + (if flag && !pool.isEmpty then 1 else 0) := by
  unfold seed_one
  split <;> simp_all

theorem seed_one_keeps (flag : Bool) (pool : List Char) (st : List Char × Rng)
    (a : Char) (h : a ∈ st.1) : a ∈ (seed_one flag pool st).1 := by
  unfold seed_one
  split
  · exact List.mem_append.mpr (Or.inl h)
  · exact h

theorem seed_one_mem (flag : Bool) (pool : List Char) (st : List Char × Rng)
    (a : Char) (h : a ∈ (seed_one flag pool st).1) :
    a ∈ st.1 ∨ (flag = true ∧ a ∈ pool) := by
  unfold seed_one at h
  split at h
  · next hcond =>
      rcases List.mem_append.mp h with h1 | h2
      · exact Or.inl h1
      · have hflag : flag = true := by
          cases flag
          · simp at hcond
          · rfl
        have hpool : pool ≠ [] := by
          intro hnil
          rw [hnil] at hcond
          simp at hcond
        have : a = (pick st.2 pool).1 := by simpa using h2
        exact Or.inr ⟨hflag, this ▸ pick_mem st.2 pool hpool⟩
  · exact Or.inl h

theorem seed_one_adds (flag : Bool) (pool : List Char) (st : List Char × Rng)
    (hflag : flag = true) (hpool : pool ≠ []) :
    ∃ c ∈ (seed_one flag pool st).1, c ∈ pool := by
  subst hflag
  unfold seed_one
  rw [if_pos (by simp [hpool])]
  exact ⟨(pick st.2 pool).1, List.mem_append.mpr (Or.inr (by simp)),
    pick_mem st.2 pool hpool⟩

theorem pool_upper_isEmpty (rules : PasswordRules) :
    (pool_upper rules).isEmpty = false := by
  unfold pool_upper
  split <;> decide

theorem pool_lower_isEmpty (rules : PasswordRules) :
    (pool_lower rules).isEmpty = false := by
  unfold pool_lower
  split <;> decide

theorem pool_digits_isEmpty (rules : PasswordRules) :
    (pool_digits rules).isEmpty = false := by
  unfold pool_digits
  split <;> decide

theorem pool_symbols_isEmpty (rules : PasswordRules) :
    (pool_symbols rules).isEmpty = false := by
  show symbols_all.isEmpty = false
  decide

theorem pool_upper_ne_nil (rules : PasswordRules) : pool_upper rules ≠ [] := by
  intro h
  have := pool_upper_isEmpty rules
  rw [h] at this
  simp at this

theorem pool_lower_ne_nil (rules : PasswordRules) : pool_lower rules ≠ [] := by
  intro h
  have := pool_lower_isEmpty rules
  rw [h] at this
  simp at this

theorem pool_digits_ne_nil (rules : PasswordRules) : pool_digits rules ≠ [] := by
  intro h
  have := pool_digits_isEmpty rules
  rw [h] at this
  simp at this

theorem pool_symbols_ne_nil (rules : PasswordRules) : pool_symbols rules ≠ [] := by
  intro h
  have := pool_symbols_isEmpty rules
  rw [h] at this
  simp at this

theorem seeded_length (rules : PasswordRules) (rng : Rng) :
    ((seeded rules rng).1).length = seed_count rules := by
  unfold seeded seed_count
  by_cases h : rules.require_each_type = true
  · rw [if_pos h, if_pos h]
    rw [seed_one_length, seed_one_length, seed_one_length, seed_one_length]
    rw [pool_upper_isEmpty, pool_lower_isEmpty, pool_digits_isEmpty,
      pool_symbols_isEmpty]
    simp only [Bool.not_false, Bool.and_true, List.length_nil]
    omega
  · rw [if_neg h, if_neg h]
    rfl

theorem mem_charset_upper (rules : PasswordRules) (c : Char)
    (hf : rules.use_uppercase = true) (hc : c ∈ pool_upper rules) :
    c ∈ charset_of rules := by
  simp [charset_of, hf, List.mem_append, hc]

theorem mem_charset_lower (rules : PasswordRules) (c : Char)
    (hf : rules.use_lowercase = true) (hc : c ∈ pool_lower rules) :
    c ∈ charset_of rules := by
  simp [charset_of, hf, List.mem_append, hc]

theorem mem_charset_digits (rules : PasswordRules) (c : Char)
    (hf : rules.use_digits = true) (hc : c ∈ pool_digits rules) :
    c ∈ charset_of rules := by
  simp [charset_of, hf, List.mem_append, hc]

theorem mem_charset_symbols (rules : PasswordRules) (c : Char)
    (hf : rules.use_symbols = true) (hc : c ∈ pool_symbols rules) :
    c ∈ charset_of rules := by
  simp [charset_of, hf, List.mem_append, hc]

theorem seeded_mem (rules : PasswordRules) (rng : Rng) (c : Char)
    (h : c ∈ (seeded rules rng).1) : c ∈ charset_of rules := by
  unfold seeded at h
  split at h
  · rcases seed_one_mem _ _ _ _ h with h1 | ⟨hf, hp⟩
    · rcases seed_one_mem _ _ _ _ h1 with h2 | ⟨hf, hp⟩
      · rcases seed_one_mem _ _ _ _ h2 with h3 | ⟨hf, hp⟩
        · rcases seed_one_mem _ _ _ _ h3 with h4 | ⟨hf, hp⟩
          · simp at h4
          · exact mem_charset_upper rules c hf hp
        · exact mem_charset_lower rules c hf hp
      · exact mem_charset_digits rules c hf hp
    · exact mem_charset_symbols rules c hf hp
  · simp at h

theorem seeded_adds_upper (rules : PasswordRules) (rng : Rng)
    (hreq : rules.require_each_type = true) (hu : rules.use_uppercase = true) :
    ∃ c ∈ (seeded rules rng).1, c ∈ pool_upper rules := by
  unfold seeded
  rw [if_pos hreq]
  obtain ⟨c, hc, hcp⟩ :=
    seed_one_adds rules.use_uppercase (pool_upper rules) ([], rng) hu
      (pool_upper_ne_nil rules)
  exact ⟨c, seed_one_keeps _ _ _ _ (seed_one_keeps _ _ _ _ (seed_one_keeps _ _ _ _ hc)), hcp⟩

theorem seeded_adds_lower (rules : PasswordRules) (rng : Rng)
    (hreq : rules.require_each_type = true) (hu : rules.use_lowercase = true) :
    ∃ c ∈ (seeded rules rng).1, c ∈ pool_lower rules := by
  unfold seeded
  rw [if_pos hreq]
  obtain ⟨c, hc, hcp⟩ :=
    seed_one_adds rules.use_lowercase (pool_lower rules) _ hu
      (pool_lower_ne_nil rules)
  exact ⟨c, seed_one_keeps _ _ _ _ (seed_one_keeps _ _ _ _ hc), hcp⟩

theorem seeded_adds_digits (rules : PasswordRules) (rng : Rng)
    (hreq : rules.require_each_type = true) (hu : rules.use_digits = true) :
    ∃ c ∈ (seeded rules rng).1, c ∈ pool_digits rules := by
  unfold seeded
  rw [if_pos hreq]
  obtain ⟨c, hc, hcp⟩ :=
    seed_one_adds rules.use_digits (pool_digits rules) _ hu
      (pool_digits_ne_nil rules)
  exact ⟨c, seed_one_keeps _ _ _ _ hc, hcp⟩

theorem seeded_adds_symbols (rules : PasswordRules) (rng : Rng)
    (hreq : rules.require_each_type = true) (hu : rules.use_symbols = true) :
    ∃ c ∈ (seeded rules rng).1, c ∈ pool_symbols rules := by
  unfold seeded
  rw [if_pos hreq]
  exact seed_one_adds rules.use_symbols (pool_symbols rules) _ hu
    (pool_symbols_ne_nil rules)

theorem log_region_append (dek : Bytes) (l₁ l₂ : List (VaultEntry × Bytes)) :
    log_region dek (l₁ ++ l₂) = log_region dek l₁ ++ log_region dek l₂ := by
  induction l₁ with
  | nil => rfl
  | cons p rest ih =>
      obtain ⟨e, n⟩ := p
      simp only [List.cons_append, log_region, List.append_eq, ih, List.append_assoc]

/-- Truncating a single well-formed frame anywhere after its 4-byte length
field but before its end makes the replay loop fail with `UnexpectedEof`:
one of the `read_exact` calls for id, nonce or ciphertext comes up
short. -/
theorem read_records_truncated_frame (dek : Bytes) (fuel : Nat) (e : VaultEntry)
    (nonce : Bytes) (acc : List VaultEntry) (j : Nat) (hwf : WfRecord e nonce)
    (hj4 : 4 ≤ j) (hjlt : j < (write_entry_frame dek nonce e).length) :
    read_records dek (fuel + 1) ((write_entry_frame dek nonce e).take j) acc
      = .err .unexpectedEof := by
  obtain ⟨hid, hn, hfit⟩ := hwf
  have hctlen : (aead_encrypt_aes_gcm (derive_item_key dek e.id) nonce (encodeEntry e) e.id).length
      = (encodeEntry e).length + 16 := length_aead_encrypt ..
  set ct := aead_encrypt_aes_gcm (derive_item_key dek e.id) nonce (encodeEntry e) e.id with hct
  have hframe : write_entry_frame dek nonce e
      = u32le (16 + 12 + ct.length) ++ (e.id ++ (nonce ++ ct)) := by
    simp [write_entry_frame, List.append_assoc]
  have hbody : (e.id ++ (nonce ++ ct)).length = 28 + ct.length := by
    simp [hid, hn]
    omega
  have hflen : (write_entry_frame dek nonce e).length = 4 + (28 + ct.length) := by
    rw [hframe]
    simp [u32le, hbody]
    omega
  rw [hframe, List.take_append_eq_append_take,
    List.take_of_length_le (show (u32le (16 + 12 + ct.length)).length ≤ j from by
      simp [u32le]; omega)]
  have h4 : (u32le (16 + 12 + ct.length)).length = 4 := rfl
  rw [h4, read_records_cons dek fuel _ _ acc (by omega)]
  have htlen : ((e.id ++ (nonce ++ ct)).take (j - 4)).length = j - 4 := by
    rw [List.length_take, hbody]
    rw [hflen] at hjlt
    omega
  rw [hflen] at hjlt
  rw [if_neg (by omega)]
  split_ifs with h1 h2 h3 <;> first | (exfalso; omega) | rfl

/-! ## Claim theorems -/

/-- C1: for every master password and valid header parameters, a vault
created with that master unlocks with the same master (`Ok(true)`, the
unwrap returning the original DEK), while re-deriving the KEK from any
other master makes the DEK unwrap fail with `AuthenticationFailed`.
(Stated over the ideal-KDF / ideal-AEAD model of the external crates.) -/
theorem C1_create_unlock (master salt dek nonce : Bytes) (params : Sym.ArgonParams)
    (hdek : dek.length = 32) :
    Sym.unlock_vault (Sym.create_vault master salt dek nonce params) master
      = .ok true
    ∧ Sym.unwrap_key_aes_gcm (Sym.derive_kek master params salt)
        (Sym.create_vault master salt dek nonce params).wrapped_dek = .ok dek
    ∧ ∀ other : Bytes, other ≠ master →
        Sym.unlock_vault (Sym.create_vault master salt dek nonce params) other
          = .authenticationFailed := by
  have hunwrap : Sym.unwrap_key_aes_gcm (Sym.derive_kek master params salt)
      (Sym.create_vault master salt dek nonce params).wrapped_dek = .ok dek := by
    unfold Sym.create_vault Sym.wrap_key_aes_gcm Sym.unwrap_key_aes_gcm
      Sym.Sealed.byteLength
    simp only
    rw [if_neg (by simp [hdek]), if_pos (by simp), if_neg (by simp [hdek])]
    rw [List.take_of_length_le (by omega)]
  refine ⟨?_, hunwrap, ?_⟩
  · unfold Sym.unlock_vault
    rw [if_pos (by constructor <;> rfl)]
    unfold Sym.create_vault at hunwrap ⊢
    rw [hunwrap]
  · intro other hother
    unfold Sym.unlock_vault
    rw [if_pos (by constructor <;> rfl)]
    have hkey : Sym.derive_kek master params salt ≠ Sym.derive_kek other params salt := by
      unfold Sym.derive_kek
      intro h
      exact hother (List.append_cancel_left h).symm
    have hauth : Sym.unwrap_key_aes_gcm (Sym.derive_kek other params salt)
        (Sym.create_vault master salt dek nonce params).wrapped_dek
          = .authenticationFailed := by
      unfold Sym.create_vault Sym.wrap_key_aes_gcm Sym.unwrap_key_aes_gcm
        Sym.Sealed.byteLength
      simp only
      rw [if_neg (by simp [hdek]), if_neg (by simp; intro h; exact absurd h hkey)]
    unfold Sym.create_vault at hauth ⊢
    rw [hauth]

/-- C1 witness: a concrete vault unlocks with its own master and fails
with `AuthenticationFailed` for a different master. -/
theorem C1_create_unlock_witness :
    Sym.unlock_vault
        (Sym.create_vault [1] [2] (List.replicate 32 0) (List.replicate 12 3)
          ⟨262144, 3, 4⟩) [1] = .ok true
    ∧ Sym.unlock_vault
        (Sym.create_vault [1] [2] (List.replicate 32 0) (List.replicate 12 3)
          ⟨262144, 3, 4⟩) [9] = .authenticationFailed := by
  have h := C1_create_unlock [1] [2] (List.replicate 32 0) (List.replicate 12 3)
    ⟨262144, 3, 4⟩ (by simp)
  exact ⟨h.1, h.2.2 [9] (by decide)⟩

/-- C4: a complete, well-framed mid-log record whose AEAD authentication
fails makes `read_all_entries` panic (the `.expect("decryption failure")`
inside `aead_decrypt_aes_gcm`), rather than return a `CorruptLog` error:
evaluation of the model at the failing input. -/
theorem C4_aead_failure_panics :
    read_all_entries [9]
        ((u32le 45 ++ (List.replicate 16 0 ++ (List.replicate 12 0 ++ List.replicate 17 0)))
          ++ write_entry_frame [9] (List.replicate 12 2)
              ⟨List.replicate 16 1, [70], [71], [72]⟩)
      = .panicked := by
  decide

/-- C8 counterexample: `unwrap_key_aes_gcm` does not assert that the
recovered plaintext is exactly 32 bytes — a wrapped blob whose plaintext
has 33 bytes silently yields the first 32 bytes as a key. -/
theorem C8_counterexample :
    unwrap_key_aes_gcm [5]
        (List.replicate 12 0
          ++ aead_encrypt_aes_gcm [5] (List.replicate 12 0) (List.replicate 33 7) [])
      = .ok (List.replicate 32 7)
    ∧ (List.replicate 33 7 : Bytes).length ≠ 32 := by
  exact ⟨by decide, by decide⟩

/-- C8 (amended): `unwrap_key_aes_gcm` rejects every input shorter than 28
bytes with `MalformedCiphertext`; on a successful decryption it panics if
the plaintext has fewer than 32 bytes and silently truncates to the first
32 bytes otherwise (there is no exactly-32 assertion). -/
theorem C8_unwrap_key (kek blob : Bytes) :
    (blob.length < 28 → unwrap_key_aes_gcm kek blob = .malformedCiphertext)
    ∧ ∀ nonce pt : Bytes, nonce.length = 12 →
        (pt.length < 32 →
          unwrap_key_aes_gcm kek (nonce ++ aead_encrypt_aes_gcm kek nonce pt [])
            = .panicked)
        ∧ (32 ≤ pt.length →
          unwrap_key_aes_gcm kek (nonce ++ aead_encrypt_aes_gcm kek nonce pt [])
            = .ok (pt.take 32)) := by
  constructor
  · intro hshort
    unfold unwrap_key_aes_gcm
    rw [if_pos (by omega)]
  · intro nonce pt hnonce
    have hlen : (nonce ++ aead_encrypt_aes_gcm kek nonce pt []).length
        = 28 + pt.length := by
      simp [length_aead_encrypt, hnonce]
      omega
    have hdrop : (nonce ++ aead_encrypt_aes_gcm kek nonce pt []).drop 12
        = aead_encrypt_aes_gcm kek nonce pt [] := List.drop_left' hnonce
    have htake : (nonce ++ aead_encrypt_aes_gcm kek nonce pt []).take 12
        = nonce := List.take_left' hnonce
    constructor
    · intro hpt
      unfold unwrap_key_aes_gcm
      rw [if_neg (by omega), hdrop, htake, aead_decrypt_encrypt]
      simp only
      rw [if_pos hpt]
    · intro hpt
      unfold unwrap_key_aes_gcm
      rw [if_neg (by omega), hdrop, htake, aead_decrypt_encrypt]
      simp only
      rw [if_neg (by omega)]

/-- C8 witness: a 2-byte blob is rejected as malformed, and a wrapped
1-byte plaintext panics at the `[..32]` copy. -/
theorem C8_unwrap_key_witness :
    unwrap_key_aes_gcm [1] [0, 0] = .malformedCiphertext
    ∧ unwrap_key_aes_gcm [1]
        (List.replicate 12 0 ++ aead_encrypt_aes_gcm [1] (List.replicate 12 0) [2] [])
      = .panicked := by
  have h := C8_unwrap_key [1] [0, 0]
  exact ⟨h.1 (by decide), (h.2 (List.replicate 12 0) [2] (by simp)).1 (by decide)⟩

/-- C9: the postcard codec round-trips every entry with a 16-byte id, and
replaying a log written by a sequence of `write_entry` calls returns
exactly the written entries in append order. -/
theorem C9_codec_roundtrip_and_replay :
    (∀ e : VaultEntry, e.id.length = 16 → decodeEntry (encodeEntry e) = some e)
    ∧ ∀ (dek : Bytes) (ps : List (VaultEntry × Bytes)),
        (∀ p ∈ ps, WfRecord p.1 p.2) →
        read_all_entries dek (log_region dek ps) = .ok (ps.map Prod.fst) :=
  ⟨decodeEntry_encodeEntry, read_all_entries_region⟩

/-- C9 witness: round-trip of a concrete entry and replay of a concrete
two-record log. -/
theorem C9_codec_roundtrip_and_replay_witness :
    decodeEntry (encodeEntry ⟨List.replicate 16 0, [65], [66], [67]⟩)
      = some ⟨List.replicate 16 0, [65], [66], [67]⟩
    ∧ read_all_entries [9]
        (log_region [9]
          [(⟨List.replicate 16 0, [65], [66], [67]⟩, List.replicate 12 1),
           (⟨List.replicate 16 1, [70], [71], [72]⟩, List.replicate 12 2)])
      = .ok [⟨List.replicate 16 0, [65], [66], [67]⟩,
             ⟨List.replicate 16 1, [70], [71], [72]⟩] := by
  refine ⟨C9_codec_roundtrip_and_replay.1 _ (by decide), ?_⟩
  have h := C9_codec_roundtrip_and_replay.2 [9]
    [(⟨List.replicate 16 0, [65], [66], [67]⟩, List.replicate 12 1),
     (⟨List.replicate 16 1, [70], [71], [72]⟩, List.replicate 12 2)] (by decide)
  simpa using h

/-- C10: a non-final frame whose length field is below 44 makes
`read_all_entries` stop replay there and return the earlier entries with
no error, silently ignoring everything after the frame. -/
theorem C10_short_length_frame (dek : Bytes) (ps : List (VaultEntry × Bytes))
    (hwf : ∀ p ∈ ps, WfRecord p.1 p.2) (clen : Nat) (hclen : clen < 44)
    (junk : Bytes) :
    read_all_entries dek (log_region dek ps ++ (u32le clen ++ junk))
      = .ok (ps.map Prod.fst) := by
  unfold read_all_entries
  rw [read_records_region dek ps _ _ _ hwf
    (by have := length_log_region_ge dek ps; simp; omega)]
  obtain ⟨f, hf⟩ : ∃ f, (log_region dek ps ++ (u32le clen ++ junk)).length + 1
      - ps.length = f + 1 := by
    have := length_log_region_ge dek ps
    exact ⟨(log_region dek ps ++ (u32le clen ++ junk)).length - ps.length, by
      simp
      omega⟩
  rw [hf, read_records_cons dek f clen junk _ (by omega),
    if_pos (by omega)]
  simp

/-- C2 counterexample: truncating a well-formed one-record vault file at
byte offset 15 — which is ≥ 4 + header_len = 5 and inside the record's id
field — makes `read_all_entries` return an `UnexpectedEof` I/O error, not
an error-free list of already-read entries; untruncated, the same file
replays to its one entry. -/
theorem C2_counterexample :
    read_all_entries_file [9]
        ((u32le 1 ++ [0]
            ++ log_region [9]
              [(⟨List.replicate 16 0, [65], [66], [67]⟩, List.replicate 12 1)]).take 15)
      = .err .unexpectedEof
    ∧ read_all_entries_file [9]
        (u32le 1 ++ [0]
          ++ log_region [9]
            [(⟨List.replicate 16 0, [65], [66], [67]⟩, List.replicate 12 1)])
      = .ok [⟨List.replicate 16 0, [65], [66], [67]⟩] := by
  exact ⟨by decide, by decide⟩

/-- C2 (amended): truncating the file at offset `4 + header_len + o`
returns the prefix of entries before the cut with no error exactly when
the cut lands on a record boundary or within the following record's
4-byte length field; a cut anywhere else inside a record — its id, nonce
or ciphertext — returns the `UnexpectedEof` I/O error instead. -/
theorem C2_truncation (dek hdr : Bytes) (ps : List (VaultEntry × Bytes))
    (hwf : ∀ p ∈ ps, WfRecord p.1 p.2) (hhdr : hdr.length < 4294967296) :
    (∀ l₁ l₂ k, ps = l₁ ++ l₂ → k ≤ 3 →
      read_all_entries_file dek ((u32le hdr.length ++ hdr ++ log_region dek ps).take
          (4 + hdr.length + ((log_region dek l₁).length + k)))
        = .ok (l₁.map Prod.fst))
    ∧ (∀ l₁ e n l₂ j, ps = l₁ ++ (e, n) :: l₂ → 4 ≤ j →
        j < (write_entry_frame dek n e).length →
      read_all_entries_file dek ((u32le hdr.length ++ hdr ++ log_region dek ps).take
          (4 + hdr.length + ((log_region dek l₁).length + j)))
        = .err .unexpectedEof) := by
  constructor
  · intro l₁ l₂ k hsplit hk
    subst hsplit
    rw [read_all_entries_file_take dek hdr _ _ hhdr, log_region_append,
      List.take_append_eq_append_take,
      List.take_of_length_le (by omega)]
    have hsub : (log_region dek l₁).length + k - (log_region dek l₁).length = k := by
      omega
    rw [hsub]
    unfold read_all_entries
    rw [read_records_region dek l₁ _ _ _
      (fun p hp => hwf p (List.mem_append.mpr (Or.inl hp)))
      (by have := length_log_region_ge dek l₁; simp; omega)]
    rw [read_records_short dek _ _ _ (by
      have := List.length_take k (log_region dek l₂)
      omega)]
    simp
  · intro l₁ e n l₂ j hsplit hj4 hjlt
    subst hsplit
    rw [read_all_entries_file_take dek hdr _ _ hhdr, log_region_append,
      List.take_append_eq_append_take,
      List.take_of_length_le (by omega)]
    have hsub : (log_region dek l₁).length + j - (log_region dek l₁).length = j := by
      omega
    rw [hsub]
    have hcons : log_region dek ((e, n) :: l₂)
        = write_entry_frame dek n e ++ log_region dek l₂ := rfl
    rw [hcons, List.take_append_of_le_length (Nat.le_of_lt hjlt)]
    unfold read_all_entries
    rw [read_records_region dek l₁ _ _ _
      (fun p hp => hwf p (List.mem_append.mpr (Or.inl hp)))
      (by have := length_log_region_ge dek l₁; simp; omega)]
    obtain ⟨f, hf⟩ : ∃ f,
        (log_region dek l₁ ++ (write_entry_frame dek n e).take j).length + 1
          - l₁.length = f + 1 := by
      have := length_log_region_ge dek l₁
      exact ⟨(log_region dek l₁ ++ (write_entry_frame dek n e).take j).length
        - l₁.length, by simp; omega⟩
    rw [hf, read_records_truncated_frame dek f e n _ j
      (hwf (e, n) (List.mem_append.mpr (Or.inr (List.mem_cons_self _ _)))) hj4 hjlt]

/-- C2 witness: on a concrete one-record vault, a cut 3 bytes into the
next (absent) record's length field returns the empty prefix cleanly, and
a cut 10 bytes into the record returns `UnexpectedEof`. -/
theorem C2_truncation_witness :
    read_all_entries_file [9]
        ((u32le 1 ++ [0]
            ++ log_region [9]
              [(⟨List.replicate 16 0, [65], [66], [67]⟩, List.replicate 12 1)]).take 8)
      = .ok []
    ∧ read_all_entries_file [9]
        ((u32le 1 ++ [0]
            ++ log_region [9]
              [(⟨List.replicate 16 0, [65], [66], [67]⟩, List.replicate 12 1)]).take 15)
      = .err .unexpectedEof := by
  have h := C2_truncation [9] [0]
    [(⟨List.replicate 16 0, [65], [66], [67]⟩, List.replicate 12 1)]
    (by decide) (by decide)
  constructor
  · have h1 := h.1 []
      [(⟨List.replicate 16 0, [65], [66], [67]⟩, List.replicate 12 1)] 3 rfl
      (by decide)
    simpa using h1
  · have h2 := h.2 [] ⟨List.replicate 16 0, [65], [66], [67]⟩
      (List.replicate 12 1) [] 10 rfl (by decide) (by decide)
    simpa using h2

/-- C10 witness: a frame with length field 10 between two well-formed
records truncates the result to the first record, with no error. -/
theorem C10_short_length_frame_witness :
    read_all_entries [9]
        (log_region [9] [(⟨List.replicate 16 0, [65], [66], [67]⟩, List.replicate 12 1)]
          ++ (u32le 10
            ++ write_entry_frame [9] (List.replicate 12 2)
                ⟨List.replicate 16 1, [70], [71], [72]⟩))
      = .ok [⟨List.replicate 16 0, [65], [66], [67]⟩] := by
  have h := C10_short_length_frame [9]
    [(⟨List.replicate 16 0, [65], [66], [67]⟩, List.replicate 12 1)]
    (by decide) 10 (by decide)
    (write_entry_frame [9] (List.replicate 12 2) ⟨List.replicate 16 1, [70], [71], [72]⟩)
  simpa using h

/-- C3: after any sequence of `write_entry` / `update_entry` /
`delete_entry` operations on a fresh vault, `list_active_entries` returns
exactly the pairs of the in-memory map obtained by replaying the record
sequence: distinct ids, and every lookup agrees with the spec-side replay
map. -/
theorem C3_last_write_wins (dek : Bytes) (nonces : Nat → Bytes) (ops : List Op)
    (hn : ∀ i, (nonces i).length = 12) (hops : ∀ op ∈ ops, WfOp op) :
    list_active_entries dek (log_region dek (ops_records nonces ops 0))
        = .ok (active_fold (ops.map record_of))
    ∧ ((active_fold (ops.map record_of)).map Prod.fst).Nodup
    ∧ ∀ id, assoc_lookup (active_fold (ops.map record_of)) id
        = spec_replay (ops.map record_of) id := by
  have hwf := ops_records_wf nonces hn ops 0 hops
  have hread := read_all_entries_region dek (ops_records nonces ops 0) hwf
  have hmap := ops_records_map_fst nonces ops 0
  refine ⟨?_, (active_fold_spec (ops.map record_of)).1,
    (active_fold_spec (ops.map record_of)).2⟩
  unfold list_active_entries
  rw [hread, hmap]

/-- C3 witness: a concrete write-then-delete sequence; the resulting map
lookup on the written id agrees with the spec-side replay (both empty). -/
theorem C3_last_write_wins_witness :
    list_active_entries [9]
        (log_region [9]
          (ops_records (fun _ => List.replicate 12 1)
            [Op.write ⟨List.replicate 16 0, [65], [66], [67]⟩,
             Op.delete (List.replicate 16 0)] 0))
      = .ok (active_fold
          ([Op.write ⟨List.replicate 16 0, [65], [66], [67]⟩,
            Op.delete (List.replicate 16 0)].map record_of))
    ∧ assoc_lookup
        (active_fold
          ([Op.write ⟨List.replicate 16 0, [65], [66], [67]⟩,
            Op.delete (List.replicate 16 0)].map record_of))
        (List.replicate 16 0)
      = spec_replay
          ([Op.write ⟨List.replicate 16 0, [65], [66], [67]⟩,
            Op.delete (List.replicate 16 0)].map record_of)
          (List.replicate 16 0) := by
  have h := C3_last_write_wins [9] (fun _ => List.replicate 12 1)
    [Op.write ⟨List.replicate 16 0, [65], [66], [67]⟩,
     Op.delete (List.replicate 16 0)]
    (fun i => by simp) (by decide)
  exact ⟨h.1, h.2.2 (List.replicate 16 0)⟩

/-- C5 counterexample: after creating one entry and deleting it, the
public `list_entries` does not return the empty active set — it returns
the raw projection with both the original record and the tombstone
(`list_active_entries` on the same log does return the empty set). -/
theorem C5_counterexample :
    list_entries [9]
        (log_region [9]
          [(⟨List.replicate 16 0, [69], [66], [67]⟩, List.replicate 12 1),
           (tombstone (List.replicate 16 0), List.replicate 12 2)])
      ≠ .ok []
    ∧ list_entries [9]
        (log_region [9]
          [(⟨List.replicate 16 0, [69], [66], [67]⟩, List.replicate 12 1),
           (tombstone (List.replicate 16 0), List.replicate 12 2)])
      = .ok [(List.replicate 16 0, [69]), (List.replicate 16 0, [])]
    ∧ list_active_entries [9]
        (log_region [9]
          [(⟨List.replicate 16 0, [69], [66], [67]⟩, List.replicate 12 1),
           (tombstone (List.replicate 16 0), List.replicate 12 2)])
      = .ok [] := by
  exact ⟨by decide, by decide, by decide⟩

/-- C5 (amended): `list_entries` is the raw `(id, title)` projection of
all records in append order, with duplicates preserved and tombstones
included; the active set (tombstones removed, duplicates collapsed) is
what `list_active_entries` returns, not `list_entries`. -/
theorem C5_list_entries_raw (dek : Bytes) (ps : List (VaultEntry × Bytes))
    (hwf : ∀ p ∈ ps, WfRecord p.1 p.2) :
    list_entries dek (log_region dek ps)
      = .ok ((ps.map Prod.fst).map fun e => (e.id, e.title)) := by
  unfold list_entries
  rw [read_all_entries_region dek ps hwf]

/-- C5 witness: the raw projection of a concrete create-then-delete log
keeps both pairs. -/
theorem C5_list_entries_raw_witness :
    list_entries [9]
        (log_region [9]
          [(⟨List.replicate 16 0, [69], [66], [67]⟩, List.replicate 12 1),
           (tombstone (List.replicate 16 0), List.replicate 12 2)])
      = .ok ((([(⟨List.replicate 16 0, [69], [66], [67]⟩, List.replicate 12 1),
              (tombstone (List.replicate 16 0), List.replicate 12 2)]
             : List (VaultEntry × Bytes)).map Prod.fst).map
               fun e => (e.id, e.title)) :=
  C5_list_entries_raw [9]
    [(⟨List.replicate 16 0, [69], [66], [67]⟩, List.replicate 12 1),
     (tombstone (List.replicate 16 0), List.replicate 12 2)] (by decide)

/-- C6 counterexample: an id whose only record is a tombstone does not
yield the `"Entry not found"` error — `read_entry` returns the tombstone
entry itself. -/
theorem C6_counterexample :
    read_entry [9]
        (log_region [9] [(tombstone (List.replicate 16 0), List.replicate 12 1)])
        (List.replicate 16 0)
      = .found (tombstone (List.replicate 16 0))
    ∧ read_entry [9]
        (log_region [9] [(tombstone (List.replicate 16 0), List.replicate 12 1)])
        (List.replicate 16 0)
      ≠ .notFound := by
  exact ⟨by decide, by decide⟩

/-- C6 (amended): `read_entry` returns `"Entry not found"` exactly when
the log holds no record at all (tombstone or not) for the id; otherwise
it returns the last record with that id verbatim, tombstones included. -/
theorem C6_read_entry (dek : Bytes) (ps : List (VaultEntry × Bytes)) (id : Bytes)
    (hwf : ∀ p ∈ ps, WfRecord p.1 p.2) :
    read_entry dek (log_region dek ps) id
      = match (ps.map Prod.fst).reverse.find? (fun e => decide (e.id = id)) with
        | some e => .found e
        | none => .notFound := by
  unfold read_entry get_entry
  rw [read_all_entries_region dek ps hwf]
  cases hfind : (ps.map Prod.fst).reverse.find? (fun e => decide (e.id = id)) with
  | none => simp [hfind]
  | some e => simp [hfind]

/-- C6 witness: on a tombstone-only log, an unrelated id is `NotFound`
and the tombstoned id is returned verbatim. -/
theorem C6_read_entry_witness :
    read_entry [9]
        (log_region [9] [(tombstone (List.replicate 16 0), List.replicate 12 1)])
        (List.replicate 16 1)
      = .notFound
    ∧ read_entry [9]
        (log_region [9] [(tombstone (List.replicate 16 0), List.replicate 12 1)])
        (List.replicate 16 0)
      = .found (tombstone (List.replicate 16 0)) := by
  have h1 := C6_read_entry [9]
    [(tombstone (List.replicate 16 0), List.replicate 12 1)]
    (List.replicate 16 1) (by decide)
  have h2 := C6_read_entry [9]
    [(tombstone (List.replicate 16 0), List.replicate 12 1)]
    (List.replicate 16 0) (by decide)
  exact ⟨by rw [h1]; decide, by rw [h2]; decide⟩

theorem charset_isEmpty_false (rules : PasswordRules)
    (h : (rules.use_uppercase || rules.use_lowercase
          || rules.use_digits || rules.use_symbols) = true) :
    (charset_of rules).isEmpty = false := by
  cases hie : (charset_of rules).isEmpty
  · rfl
  · exfalso
    have hnil : charset_of rules = [] := List.isEmpty_iff.mp hie
    unfold charset_of at hnil
    obtain ⟨hABC, hD⟩ := List.append_eq_nil.mp hnil
    obtain ⟨hAB, hC⟩ := List.append_eq_nil.mp hABC
    obtain ⟨hA, hB⟩ := List.append_eq_nil.mp hAB
    simp only [Bool.or_eq_true] at h
    rcases h with ((hu | hl) | hd) | hs
    · rw [if_pos hu] at hA
      exact pool_upper_ne_nil rules hA
    · rw [if_pos hl] at hB
      exact pool_lower_ne_nil rules hB
    · rw [if_pos hd] at hC
      exact pool_digits_ne_nil rules hC
    · rw [if_pos hs] at hD
      exact pool_symbols_ne_nil rules hD

/-- C7 counterexample: with `length = 2`, all four pools enabled and
`require_each_type` set, the seeding phase pushes 4 characters and the
output has 4 characters — not exactly `rules.length = 2`; the over-seeded
buffer is shuffled but never truncated. -/
theorem C7_counterexample :
    (generate_password ⟨fun _ => 0, 0⟩ ⟨2, true, true, true, true, false, true⟩).length
      = 4
    ∧ (generate_password ⟨fun _ => 0, 0⟩ ⟨2, true, true, true, true, false, true⟩).length
      ≠ 2 := by
  exact ⟨by decide, by decide⟩

/-- C7 (amended): with at least one pool enabled, `generate_password`
returns `max rules.length seeds` characters, where `seeds` is the number
of pools seeded by `require_each_type` (so exactly `rules.length`
whenever the seeding does not overshoot); every character is drawn from
the enabled, ambiguity-filtered pools; with all pools disabled it returns
the literal `"password"`; and with `require_each_type` set every enabled
pool contributes at least one character. -/
theorem C7_generate_password (rng : Rng) (rules : PasswordRules) :
    ((rules.use_uppercase || rules.use_lowercase
        || rules.use_digits || rules.use_symbols) = false →
      generate_password rng rules = "password".toList)
    ∧ ((rules.use_uppercase || rules.use_lowercase
        || rules.use_digits || rules.use_symbols) = true →
      (generate_password rng rules).length = max rules.length (seed_count rules)
      ∧ (∀ c ∈ generate_password rng rules, c ∈ charset_of rules)
      ∧ (rules.require_each_type = true →
          (rules.use_uppercase = true →
            ∃ c ∈ generate_password rng rules, c ∈ pool_upper rules)
          ∧ (rules.use_lowercase = true →
            ∃ c ∈ generate_password rng rules, c ∈ pool_lower rules)
          ∧ (rules.use_digits = true →
            ∃ c ∈ generate_password rng rules, c ∈ pool_digits rules)
          ∧ (rules.use_symbols = true →
            ∃ c ∈ generate_password rng rules, c ∈ pool_symbols rules))) := by
  constructor
  · intro hoff
    simp only [Bool.or_eq_false_iff] at hoff
    obtain ⟨⟨⟨hu, hl⟩, hd⟩, hs⟩ := hoff
    have hcs : charset_of rules = [] := by
      unfold charset_of
      rw [if_neg (by simp [hu]), if_neg (by simp [hl]), if_neg (by simp [hd]),
        if_neg (by simp [hs])]
      rfl
    unfold generate_password
    rw [hcs]
    rfl
  · intro hon
    have hie : (charset_of rules).isEmpty = false := charset_isEmpty_false rules hon
    have hne : charset_of rules ≠ [] := by
      intro hn
      have htrue : (charset_of rules).isEmpty = true := List.isEmpty_iff.mpr hn
      rw [htrue] at hie
      exact absurd hie (by decide)
    have hout : generate_password rng rules
        = (shuffle (fill_loop (charset_of rules)
            (rules.length - ((seeded rules rng).1).length)
            (seeded rules rng).1 (seeded rules rng).2).1
           (fill_loop (charset_of rules)
            (rules.length - ((seeded rules rng).1).length)
            (seeded rules rng).1 (seeded rules rng).2).2).1 := by
      unfold generate_password
      rw [hie]
      rfl
    refine ⟨?_, ?_, ?_⟩
    · rw [hout, length_shuffle, fill_loop_length, seeded_length]
      omega
    · intro c hc
      rw [hout, mem_shuffle] at hc
      rcases fill_loop_mem (charset_of rules) hne _ _ _ _ hc with h1 | h2
      · exact seeded_mem rules rng c h1
      · exact h2
    · intro hreq
      refine ⟨?_, ?_, ?_, ?_⟩
      · intro hu
        obtain ⟨c, hc, hcp⟩ := seeded_adds_upper rules rng hreq hu
        refine ⟨c, ?_, hcp⟩
        rw [hout, mem_shuffle]
        exact fill_loop_keeps _ _ _ _ _ hc
      · intro hl
        obtain ⟨c, hc, hcp⟩ := seeded_adds_lower rules rng hreq hl
        refine ⟨c, ?_, hcp⟩
        rw [hout, mem_shuffle]
        exact fill_loop_keeps _ _ _ _ _ hc
      · intro hd
        obtain ⟨c, hc, hcp⟩ := seeded_adds_digits rules rng hreq hd
        refine ⟨c, ?_, hcp⟩
        rw [hout, mem_shuffle]
        exact fill_loop_keeps _ _ _ _ _ hc
      · intro hs
        obtain ⟨c, hc, hcp⟩ := seeded_adds_symbols rules rng hreq hs
        refine ⟨c, ?_, hcp⟩
        rw [hout, mem_shuffle]
        exact fill_loop_keeps _ _ _ _ _ hc

/-- C7 witness: all pools disabled yields the literal `"password"`; the
`safe`-style rules (length 16, everything enabled) yield `max 16 seeds`
characters. -/
theorem C7_generate_password_witness :
    generate_password ⟨fun _ => 1, 0⟩ ⟨5, false, false, false, false, false, false⟩
      = "password".toList
    ∧ (generate_password ⟨fun _ => 1, 0⟩ ⟨16, true, true, true, true, true, true⟩).length
      = max 16 (seed_count ⟨16, true, true, true, true, true, true⟩) := by
  refine ⟨(C7_generate_password ⟨fun _ => 1, 0⟩
      ⟨5, false, false, false, false, false, false⟩).1 (by decide), ?_⟩
  exact ((C7_generate_password ⟨fun _ => 1, 0⟩
    ⟨16, true, true, true, true, true, true⟩).2 (by decide)).1

end SecureVault
